import Mathlib

/-!
Verification of `pl5_bonus_calculation.py`, a lottery ("排列五") recommendation
verifier.  The Python source is shallowly embedded below: its pure functions
become Lean functions over `List Char` / `List Nat`, the file system and the
clock are passed in explicitly, and Python dictionaries become association
lists.  Text is modelled at the character level; the ASCII subsets of
Python's `\s`, `\d` and `str.strip` character classes are used throughout
(the inputs the script consumes are ASCII digits, ASCII separators and the
fixed Chinese marker strings, none of which involve non-ASCII whitespace or
non-ASCII digits).
-/

namespace PL5

/-! ## Shared character-class helpers (ASCII models of Python classes) -/

/-- ASCII part of Python's `\s` / `str.strip()` whitespace class:
space, tab, newline, carriage return, vertical tab, form feed. -/
def isPySpace (c : Char) : Bool :=
  c = ' ' || c = '\t' || c = '\n' || c = '\x0d' || c = (Char.ofNat 11) || c = (Char.ofNat 12)

/-- Numeric value of an ASCII digit character. -/
def digitVal (c : Char) : Nat := c.toNat - 48

/-- Value of a string of ASCII digit characters, most significant first. -/
def digitsVal (s : List Char) : Nat := s.foldl (fun a c => 10 * a + digitVal c) 0

/-! ## Scoring engine: `calculate_prize` (source lines 220-255)

`PRIZE_VALUES = {"直选": 100000}`; a recommendation wins exactly when it equals
the authoritative numbers position by position. -/

/-- The single prize-tier label (source: the key `"直选"` of `PRIZE_VALUES`). -/
def zhixuan : String := "直选"

/-- Source line 43-45: the prize dictionary `PRIZE_VALUES`. -/
def PRIZE_VALUES : List (String × Nat) := [(zhixuan, 100000)]

/-- The amount looked up at `PRIZE_VALUES["直选"]` (source line 244). -/
def zhixuanVal : Nat := ((PRIZE_VALUES.lookup zhixuan).getD 0)

/-- One element of `winning_details` (source lines 248-253). -/
structure WinDetail where
  index : Nat
  numbers : List Nat
  prize_type : String
  prize_amount : Nat
deriving DecidableEq, Repr

/-- The `for i, recommendation in enumerate(recommendations)` loop of
`calculate_prize` (source lines 238-253), with `i` the current 0-based index.
Returns (total_prize, count at key "直选", winning_details). -/
def calcLoop (prize_numbers : List Nat) (i : Nat) : List (List Nat) → Nat × Nat × List WinDetail
  | [] => (0, 0, [])
  | r :: rest =>
    let t := calcLoop prize_numbers (i + 1) rest
    if r.length ≠ 5 then t
    else if r = prize_numbers then
      (t.1 + zhixuanVal, t.2.1 + 1,
        { index := i + 1, numbers := r, prize_type := zhixuan, prize_amount := zhixuanVal } :: t.2.2)
    else t

/-- Source lines 220-255, `calculate_prize`.  The guard on line 231 returns
`(0, {}, [])` when the recommendation list is empty, the prize numbers are
empty, or the prize numbers do not have exactly 5 elements; otherwise the
statistics dictionary holds the single key `"直选"`. -/
def calculate_prize (recommendations : List (List Nat)) (prize_numbers : List Nat) :
    Nat × List (String × Nat) × List WinDetail :=
  if recommendations = [] ∨ prize_numbers = [] ∨ prize_numbers.length ≠ 5 then (0, [], [])
  else
    let r := calcLoop prize_numbers 0 recommendations
    (r.1, [(zhixuan, r.2.1)], r.2.2)

/-- Spec-side description of a single comparison: a win record is produced
exactly when the recommendation equals the authoritative list. -/
def winOf (prize_numbers : List Nat) (p : Nat × List Nat) : Option WinDetail :=
  if p.2 = prize_numbers then
    some { index := p.1 + 1, numbers := p.2, prize_type := zhixuan, prize_amount := zhixuanVal }
  else none

theorem zhixuanVal_eq : zhixuanVal = 100000 := rfl

theorem calcLoop_cons_win (pn r : List Nat) (rest : List (List Nat)) (i : Nat)
    (hlen : r.length = 5) (hr : r = pn) :
    calcLoop pn i (r :: rest) =
      ((calcLoop pn (i + 1) rest).1 + zhixuanVal, (calcLoop pn (i + 1) rest).2.1 + 1,
        { index := i + 1, numbers := r, prize_type := zhixuan, prize_amount := zhixuanVal } ::
          (calcLoop pn (i + 1) rest).2.2) := by
  simp only [calcLoop]
  rw [if_neg (show ¬r.length ≠ 5 by simp [hlen]), if_pos hr]

theorem calcLoop_cons_skip (pn r : List Nat) (rest : List (List Nat)) (i : Nat)
    (hlen : r.length ≠ 5) :
    calcLoop pn i (r :: rest) = calcLoop pn (i + 1) rest := by
  simp only [calcLoop]
  rw [if_pos hlen]

theorem calcLoop_cons_lose (pn r : List Nat) (rest : List (List Nat)) (i : Nat)
    (hlen : r.length = 5) (hr : r ≠ pn) :
    calcLoop pn i (r :: rest) = calcLoop pn (i + 1) rest := by
  simp only [calcLoop]
  rw [if_neg (show ¬r.length ≠ 5 by simp [hlen]), if_neg hr]

theorem calcLoop_spec (pn : List Nat) (h5 : pn.length = 5) (recs : List (List Nat)) :
    ∀ i, calcLoop pn i recs =
      (zhixuanVal * ((List.enumFrom i recs).filterMap (winOf pn)).length,
       ((List.enumFrom i recs).filterMap (winOf pn)).length,
       (List.enumFrom i recs).filterMap (winOf pn)) := by
  induction recs with
  | nil => intro i; simp [calcLoop]
  | cons r rest ih =>
    intro i
    by_cases hr : r = pn
    · have hlen : r.length = 5 := by rw [hr]; exact h5
      rw [calcLoop_cons_win pn r rest i hlen hr, ih (i + 1)]
      simp [List.enumFrom, winOf, hr, Nat.mul_succ]
    · by_cases hlen : r.length = 5
      · rw [calcLoop_cons_lose pn r rest i hlen hr, ih (i + 1)]
        simp [List.enumFrom, winOf, hr]
      · have hne : r ≠ pn := hr
        rw [calcLoop_cons_skip pn r rest i hlen, ih (i + 1)]
        simp [List.enumFrom, winOf, hne]

theorem calcLoop_indices (pn : List Nat) (recs : List (List Nat)) :
    ∀ i, (∀ d ∈ (calcLoop pn i recs).2.2, i < d.index) ∧
      List.Pairwise (fun d e : WinDetail => d.index < e.index) (calcLoop pn i recs).2.2 := by
  induction recs with
  | nil => intro i; simp [calcLoop]
  | cons r rest ih =>
    intro i
    obtain ⟨ih1, ih2⟩ := ih (i + 1)
    by_cases hlen : r.length = 5
    · by_cases hr : r = pn
      · rw [calcLoop_cons_win pn r rest i hlen hr]
        refine ⟨?_, ?_⟩
        · intro d hd
          simp only [List.mem_cons] at hd
          rcases hd with h | h
          · simp [h]
          · exact Nat.lt_of_succ_lt (ih1 d h)
        · exact List.Pairwise.cons (fun e he => ih1 e he) ih2
      · rw [calcLoop_cons_lose pn r rest i hlen hr]
        exact ⟨fun d hd => Nat.lt_of_succ_lt (ih1 d hd), ih2⟩
    · rw [calcLoop_cons_skip pn r rest i hlen]
      exact ⟨fun d hd => Nat.lt_of_succ_lt (ih1 d hd), ih2⟩

/-- C1: with an authoritative list of exactly 5 digits, the win-record list is
exactly the in-order filter of the enumerated recommendations keeping only
those equal element-by-element to the authoritative list, each winner getting
one record at the fixed tier amount 100000 (`winOf`); a differing
recommendation contributes nothing, and the original bet order is preserved. -/
theorem scoring_exact_match_only (recs : List (List Nat)) (pn : List Nat) (h5 : pn.length = 5) :
    (calculate_prize recs pn).2.2 = (recs.enum).filterMap (winOf pn) ∧
      ∀ d ∈ (calculate_prize recs pn).2.2, d.prize_amount = 100000 := by
  have hpn : pn ≠ [] := by intro h; rw [h] at h5; simp at h5
  constructor
  · rcases recs with _ | ⟨r, rest⟩
    · simp [calculate_prize]
    · rw [calculate_prize, if_neg (by simp [hpn, h5])]
      simp only [List.enum]
      rw [calcLoop_spec pn h5 (r :: rest) 0]
  · intro d hd
    rcases recs with _ | ⟨r, rest⟩
    · simp [calculate_prize] at hd
    · rw [calculate_prize, if_neg (by simp [hpn, h5])] at hd
      simp only at hd
      rw [calcLoop_spec pn h5 (r :: rest) 0] at hd
      simp only [List.mem_filterMap] at hd
      rcases hd with ⟨p, _, hp⟩
      rw [winOf] at hp
      by_cases hw : p.2 = pn
      · rw [if_pos hw] at hp
        cases hp
        rfl
      · rw [if_neg hw] at hp
        cases hp

/-- Witness for C1 at a concrete input: against `[1,2,3,4,5]` the equal
recommendation wins 100000 at index 1 and the differing one does not appear. -/
theorem scoring_exact_match_only_witness :
    (calculate_prize [[1, 2, 3, 4, 5], [1, 2, 3, 4, 6]] [1, 2, 3, 4, 5]).2.2 =
      [{ index := 1, numbers := [1, 2, 3, 4, 5], prize_type := zhixuan, prize_amount := 100000 }] :=
  ((scoring_exact_match_only [[1, 2, 3, 4, 5], [1, 2, 3, 4, 6]] [1, 2, 3, 4, 5] (by decide)).1).trans
    (by decide)

/-- C7: whenever the authoritative list does not have exactly 5 elements,
`calculate_prize` degrades to total 0, an empty statistics dictionary and an
empty win list (it is a total function, so it never raises). -/
theorem scoring_malformed_prize_numbers (recs : List (List Nat)) (pn : List Nat)
    (h : pn.length ≠ 5) :
    calculate_prize recs pn = (0, [], []) := by
  rw [calculate_prize, if_pos (Or.inr (Or.inr h))]

/-- Witness for C7 at a concrete malformed (3-element) authoritative list. -/
theorem scoring_malformed_prize_numbers_witness :
    calculate_prize [[1, 2, 3, 4, 5]] [1, 2, 3] = (0, [], []) :=
  scoring_malformed_prize_numbers [[1, 2, 3, 4, 5]] [1, 2, 3] (by decide)

/-- C10: on a well-formed run (non-empty recommendations, 5-digit
authoritative list) the output of `calculate_prize` is internally consistent:
total prize = 100000 × number of win records, the "直选" count in the
statistics equals the number of win records, and the 1-based indices of the
win records are strictly increasing. -/
theorem scoring_internal_consistency (recs : List (List Nat)) (pn : List Nat)
    (h5 : pn.length = 5) (hne : recs ≠ []) :
    (calculate_prize recs pn).1 = 100000 * (calculate_prize recs pn).2.2.length ∧
      (calculate_prize recs pn).2.1 = [(zhixuan, (calculate_prize recs pn).2.2.length)] ∧
      List.Pairwise (fun d e : WinDetail => d.index < e.index) (calculate_prize recs pn).2.2 := by
  have hpn : pn ≠ [] := by intro h; rw [h] at h5; simp at h5
  have hguard : ¬(recs = [] ∨ pn = [] ∨ pn.length ≠ 5) := by simp [hne, hpn, h5]
  refine ⟨?_, ?_, ?_⟩
  · rw [calculate_prize, if_neg hguard]
    simp only
    rw [calcLoop_spec pn h5 recs 0]
    simp [zhixuanVal_eq]
  · rw [calculate_prize, if_neg hguard]
    simp only
    rw [calcLoop_spec pn h5 recs 0]
  · rw [calculate_prize, if_neg hguard]
    simp only
    exact (calcLoop_indices pn recs 0).2

/-- Witness for C10: two winners among three bets at a concrete input. -/
theorem scoring_internal_consistency_witness :
    (calculate_prize [[7, 7, 7, 7, 7], [1, 2, 3, 4, 5], [7, 7, 7, 7, 7]] [7, 7, 7, 7, 7]).1 =
      100000 * (calculate_prize [[7, 7, 7, 7, 7], [1, 2, 3, 4, 5], [7, 7, 7, 7, 7]] [7, 7, 7, 7, 7]).2.2.length :=
  (scoring_internal_consistency [[7, 7, 7, 7, 7], [1, 2, 3, 4, 5], [7, 7, 7, 7, 7]] [7, 7, 7, 7, 7]
    (by decide) (by decide)).1

/-! ## Recommendation extractor: single bets
(`parse_recommendations_from_report`, source lines 186-195)

The single-bet lines are found with `re.finditer` over the pattern
`注\s*\d+:\s*\[([0-9\s,]+)\]`; for each match the digit characters of the
captured group become the numbers, and only lists of exactly 5 digits in
[0,9] are kept.  The pattern's character classes are disjoint from their
follow sets, so the greedy regex match is the deterministic scan below. -/

/-- The class `[0-9\s,]` of the captured group. -/
def isGroupChar (c : Char) : Bool := c.isDigit || isPySpace c || c = ','

/-- Match the part of `注\s*\d+:\s*\[([0-9\s,]+)\]` after the literal `注`:
whitespace, at least one digit, `:`, whitespace, `[`, the non-empty captured
group, `]`.  Returns the digit values found in the group (the model of
`[int(x.strip()) for x in re.findall(r'\d', numbers_str)]`) together with the
input that remains after the closing bracket. -/
def matchAfterZhu (s : List Char) : Option (List Nat × List Char) :=
  let s1 := s.dropWhile isPySpace
  if s1.takeWhile Char.isDigit = [] then none
  else
    match s1.dropWhile Char.isDigit with
    | ':' :: s3 =>
      match s3.dropWhile isPySpace with
      | '[' :: s5 =>
        if s5.takeWhile isGroupChar = [] then none
        else
          match s5.dropWhile isGroupChar with
          | ']' :: s6 => some (((s5.takeWhile isGroupChar).filter Char.isDigit).map digitVal, s6)
          | _ => none
      | _ => none
    | _ => none

theorem dropWhile_length_le (p : Char → Bool) (l : List Char) :
    (l.dropWhile p).length ≤ l.length :=
  (List.dropWhile_sublist (l := l) p).length_le

theorem matchAfterZhu_length (s : List Char) (p : List Nat × List Char)
    (h : matchAfterZhu s = some p) : p.2.length ≤ s.length := by
  simp only [matchAfterZhu] at h
  have h1 : (s.dropWhile isPySpace).length ≤ s.length := dropWhile_length_le _ _
  split at h
  · exact absurd h (by simp)
  · split at h
    case _ s3 heq =>
      have h2 : (s3.length + 1) ≤ (s.dropWhile isPySpace).length := by
        have := dropWhile_length_le Char.isDigit (s.dropWhile isPySpace)
        rw [heq] at this
        simpa using this
      split at h
      case _ s5 heq2 =>
        have h3 : (s5.length + 1) ≤ s3.length := by
          have := dropWhile_length_le isPySpace s3
          rw [heq2] at this
          simpa using this
        split at h
        · exact absurd h (by simp)
        · split at h
          case _ s6 heq3 =>
            have h4 : (s6.length + 1) ≤ s5.length := by
              have := dropWhile_length_le isGroupChar s5
              rw [heq3] at this
              simpa using this
            cases h
            simp only
            omega
          case _ => exact absurd h (by simp)
      case _ => exact absurd h (by simp)
    case _ => exact absurd h (by simp)

/-- The scan performed by `re.finditer` over the single-bet pattern together
with the filtering body of the `for match in ...` loop (source lines 187-195):
accepted number lists are collected in their order of appearance, scanning
resumes after each match, and a failed match attempt advances one character.
The extra fuel argument makes the recursion structural; by
`matchAfterZhu_length` every step consumes at least one character, so fuel
equal to the input length (as supplied by `findSingles`) is never exhausted. -/
def findSinglesFuel : Nat → List Char → List (List Nat)
  | 0, _ => []
  | _, [] => []
  | fuel + 1, c :: rest =>
    if c = '注' then
      match matchAfterZhu rest with
      | some (nums, rem) =>
        (if nums.length = 5 ∧ nums.all (fun n => decide (0 ≤ n) && decide (n ≤ 9)) then [nums]
         else []) ++ findSinglesFuel fuel rem
      | none => findSinglesFuel fuel rest
    else findSinglesFuel fuel rest

/-- The list `result['single']` built by `parse_recommendations_from_report`
(source lines 186-195). -/
def findSingles (s : List Char) : List (List Nat) := findSinglesFuel s.length s

theorem findSinglesFuel_all (fuel : Nat) :
    ∀ s : List Char, ∀ r ∈ findSinglesFuel fuel s, r.length = 5 ∧ ∀ d ∈ r, d ≤ 9 := by
  induction fuel with
  | zero => intro s; simp [findSinglesFuel]
  | succ n ih =>
    intro s
    cases s with
    | nil => simp [findSinglesFuel]
    | cons c rest =>
      by_cases hc : c = '注'
      · simp only [findSinglesFuel, if_pos hc]
        cases hm : matchAfterZhu rest with
        | none => exact ih rest
        | some p =>
          obtain ⟨nums, rem⟩ := p
          dsimp only
          by_cases hok : nums.length = 5 ∧ nums.all (fun n => decide (0 ≤ n) && decide (n ≤ 9))
          · rw [if_pos hok]
            intro r hr
            rcases List.mem_append.mp hr with h | h
            · have hr2 : r = nums := by simpa using h
              subst hr2
              refine ⟨hok.1, ?_⟩
              intro d hd
              have := (List.all_eq_true.mp hok.2) d hd
              simp only [Bool.and_eq_true, decide_eq_true_eq] at this
              exact this.2
            · exact ih rem r h
          · rw [if_neg hok]
            intro r hr
            exact ih rem r (by simpa using hr)
      · simp only [findSinglesFuel, if_neg hc]
        exact ih rest

/-- A concrete analysis-report fragment: four single-bet lines, the third
listing the digits 1,2,3,4,5 and the fourth having fewer than 5 digits
inside its brackets. -/
def sampleReport : List Char :=
  ("注 1: [9, 9, 9, 9, 9]\n注 2: [8, 8, 8, 8, 8]\n注 3: [1, 2, 3, 4, 5]\n注 4: [1, 2]\n").toList

/-- C4: extracting the sample report yields the three well-formed single bets
in their order of appearance (the short bracket of line 4 yields no entry),
the single-bet line labeled 3 with bracket digits 1,2,3,4,5 becomes the
recommendation `[1,2,3,4,5]` whose win record carries index 3, and in general
every stored single has exactly 5 digits, each in [0,9]. -/
theorem extraction_single_bets :
    findSingles sampleReport = [[9, 9, 9, 9, 9], [8, 8, 8, 8, 8], [1, 2, 3, 4, 5]] ∧
      (calculate_prize (findSingles sampleReport) [1, 2, 3, 4, 5]).2.2 =
        [{ index := 3, numbers := [1, 2, 3, 4, 5], prize_type := zhixuan, prize_amount := 100000 }] ∧
      ∀ s : List Char, ∀ r ∈ findSingles s, r.length = 5 ∧ ∀ d ∈ r, d ≤ 9 :=
  ⟨by decide, by decide, fun s => findSinglesFuel_all s.length s⟩

/-- Witness for C4: the invariant part applied to a stored single of the
sample report. -/
theorem extraction_single_bets_witness :
    ([9, 9, 9, 9, 9] : List Nat).length = 5 ∧ ∀ d ∈ ([9, 9, 9, 9, 9] : List Nat), d ≤ 9 :=
  extraction_single_bets.2.2 sampleReport [9, 9, 9, 9, 9] (by decide)

/-! ## Draw table loader: `get_period_data_from_csv` (source lines 82-121)

The source iterates `csv.reader(csv_content.splitlines())`, skips the header
row, accepts rows with at least 6 fields whose first field matches
`^\d{4,7}$` and whose fields 1-5 are integers in [0,9], stores them in a
dictionary keyed by period and appends the period to `periods_list`, and
finally returns the dictionary together with `sorted(periods_list, key=int)`.
`csv.reader` on quote-free lines is a split on commas (no input the claims
quantify over uses CSV quoting); a blank line gives `[]` in Python and `[""]`
here, both rejected by the ≥ 6 fields test. -/

/-- Model of Python `str.splitlines` for the ASCII line boundaries
`\n`, `\r\n` and `\r`: no entry is produced for a trailing boundary. -/
def splitLines : List Char → List (List Char)
  | [] => []
  | '\n' :: rest => [] :: splitLines rest
  | '\x0d' :: '\n' :: rest => [] :: splitLines rest
  | '\x0d' :: rest => [] :: splitLines rest
  | c :: rest =>
    match splitLines rest with
    | [] => [[c]]
    | l :: ls => (c :: l) :: ls

/-- Splitting one CSV line into its comma-separated fields. -/
def splitComma : List Char → List (List Char)
  | [] => [[]]
  | ',' :: rest => [] :: splitComma rest
  | c :: rest =>
    match splitComma rest with
    | [] => [[c]]
    | l :: ls => (c :: l) :: ls

/-- Python `str.strip()` (ASCII whitespace). -/
def pyStrip (s : List Char) : List Char :=
  ((s.dropWhile isPySpace).reverse.dropWhile isPySpace).reverse

/-- Continuation of Python `int()` digit parsing after at least one digit:
further digits, optionally separated by single underscores. -/
def pyUDigits : Nat → List Char → Option Nat
  | acc, [] => some acc
  | acc, '_' :: c :: rest =>
    if c.isDigit then pyUDigits (10 * acc + digitVal c) rest else none
  | _, ['_'] => none
  | acc, c :: rest =>
    if c.isDigit then pyUDigits (10 * acc + digitVal c) rest else none

/-- Model of Python `int(str)` (ASCII): strip whitespace, optional sign,
then digits with optional single underscores between digits; `none` models
`ValueError`. -/
def pyInt? (s : List Char) : Option Int :=
  match pyStrip s with
  | [] => none
  | '+' :: c :: rest =>
    if c.isDigit then (pyUDigits (digitVal c) rest).map Int.ofNat else none
  | '-' :: c :: rest =>
    if c.isDigit then (pyUDigits (digitVal c) rest).map (fun n => -(Int.ofNat n)) else none
  | c :: rest =>
    if c.isDigit then (pyUDigits (digitVal c) rest).map Int.ofNat else none

/-- The period pattern `^\d{4,7}$` of source line 103. -/
def periodPat (s : List Char) : Bool :=
  decide (4 ≤ s.length) && decide (s.length ≤ 7) && s.all Char.isDigit

/-- Processing of a single split row (source lines 103-110): the shape and
pattern guard, the five left-to-right `int()` conversions whose failure
(`ValueError`) skips the row, and the range check on the five numbers. -/
def rowEntry (row : List (List Char)) : Option (List Char × List Int) :=
  if 6 ≤ row.length ∧ periodPat (row.getD 0 []) = true then
    match pyInt? (row.getD 1 []) with
    | none => none
    | some p1 =>
      match pyInt? (row.getD 2 []) with
      | none => none
      | some p2 =>
        match pyInt? (row.getD 3 []) with
        | none => none
        | some p3 =>
          match pyInt? (row.getD 4 []) with
          | none => none
          | some p4 =>
            match pyInt? (row.getD 5 []) with
            | none => none
            | some p5 =>
              if ∀ v ∈ [p1, p2, p3, p4, p5], 0 ≤ v ∧ v ≤ 9 then
                some (row.getD 0 [], [p1, p2, p3, p4, p5])
              else none
  else none

/-- Python dictionary assignment `period_map[period] = ...`: replace the value
if the key is present, otherwise append the binding. -/
def dictInsert (m : List (List Char × List Int)) (k : List Char) (v : List Int) :
    List (List Char × List Int) :=
  if m.any (fun p => decide (p.1 = k)) then
    m.map (fun p => if p.1 = k then (k, v) else p)
  else m ++ [(k, v)]

/-- One iteration of the `for i, row in enumerate(reader)` loop over
`(period_map, periods_list)` (source lines 102-112); note that an accepted
row always appends its period to `periods_list`, even when the period is
already a key of `period_map`. -/
def csvStep (acc : List (List Char × List Int) × List (List Char)) (line : List Char) :
    List (List Char × List Int) × List (List Char) :=
  match rowEntry (splitComma line) with
  | some (p, ns) => (dictInsert acc.1 p ns, acc.2 ++ [p])
  | none => acc

/-- Numeric comparison of period strings: the order given by `key=int`
(periods that reach the sort all match `^\d{4,7}$`, so `int` is `digitsVal`). -/
def periodLe (a b : List Char) : Prop := digitsVal a ≤ digitsVal b

instance : DecidableRel periodLe := fun _ _ => Nat.decLe _ _

instance : IsTotal (List Char) periodLe := ⟨fun _ _ => Nat.le_total _ _⟩

instance : IsTrans (List Char) periodLe := ⟨fun _ _ _ hab hbc => Nat.le_trans hab hbc⟩

/-- `sorted(periods_list, key=int)` (source line 121).  Python's `sorted` is a
stable sort and any two stable sorts agree on their output, so the stable
insertion sort computes the same list. -/
def sortPeriods (ps : List (List Char)) : List (List Char) :=
  List.insertionSort periodLe ps

/-- Source lines 82-121, `get_period_data_from_csv`, with `none` modelling the
`(None, None)` returns for empty input, a reader failure, or an empty map. -/
def get_period_data_from_csv (csv_content : List Char) :
    Option (List (List Char × List Int) × List (List Char)) :=
  if csv_content = [] then none
  else
    match splitLines csv_content with
    | [] => none
    | _ :: dataLines =>
      let r := dataLines.foldl csvStep ([], [])
      if r.1 = [] then none else some (r.1, sortPeriods r.2)

/-- Inversion of a successful `rowEntry`: the guard held, the five fields
parsed, and the stored numbers are the five parsed values in range. -/
theorem rowEntry_some (row : List (List Char)) (p : List Char) (ns : List Int)
    (h : rowEntry row = some (p, ns)) :
    6 ≤ row.length ∧ periodPat (row.getD 0 []) = true ∧ p = row.getD 0 [] ∧
      ns.length = 5 ∧ (∀ v ∈ ns, 0 ≤ v ∧ v ≤ 9) ∧
      ∀ j, 1 ≤ j → j ≤ 5 → ∃ v, pyInt? (row.getD j []) = some v ∧ 0 ≤ v ∧ v ≤ 9 := by
  by_cases hg : 6 ≤ row.length ∧ periodPat (row.getD 0 []) = true
  · rw [rowEntry, if_pos hg] at h
    rcases e1 : pyInt? (row.getD 1 []) with _ | p1 <;> rw [e1] at h
    · simp at h
    rcases e2 : pyInt? (row.getD 2 []) with _ | p2 <;> rw [e2] at h
    · simp at h
    rcases e3 : pyInt? (row.getD 3 []) with _ | p3 <;> rw [e3] at h
    · simp at h
    rcases e4 : pyInt? (row.getD 4 []) with _ | p4 <;> rw [e4] at h
    · simp at h
    rcases e5 : pyInt? (row.getD 5 []) with _ | p5 <;> rw [e5] at h
    · simp at h
    dsimp only at h
    by_cases hall : ∀ v ∈ [p1, p2, p3, p4, p5], 0 ≤ v ∧ v ≤ 9
    · rw [if_pos hall] at h
      simp only [Option.some.injEq, Prod.mk.injEq] at h
      obtain ⟨hp, hns⟩ := h
      refine ⟨hg.1, hg.2, hp.symm, ?_, ?_, ?_⟩
      · rw [← hns]; rfl
      · rw [← hns]; exact hall
      · intro j hj1 hj5
        interval_cases j
        · exact ⟨p1, e1, hall p1 (by simp)⟩
        · exact ⟨p2, e2, hall p2 (by simp)⟩
        · exact ⟨p3, e3, hall p3 (by simp)⟩
        · exact ⟨p4, e4, hall p4 (by simp)⟩
        · exact ⟨p5, e5, hall p5 (by simp)⟩
    · rw [if_neg hall] at h
      simp at h
  · rw [rowEntry, if_neg hg] at h
    simp at h

theorem rowEntry_none_of_invalid (row : List (List Char))
    (h : row.length < 6 ∨ periodPat (row.getD 0 []) = false ∨
      ∃ j, 1 ≤ j ∧ j ≤ 5 ∧ ¬ ∃ v : Int, pyInt? (row.getD j []) = some v ∧ 0 ≤ v ∧ v ≤ 9) :
    rowEntry row = none := by
  rcases hre : rowEntry row with _ | pr
  · rfl
  · obtain ⟨p, ns⟩ := pr
    have hs := rowEntry_some row p ns hre
    rcases h with h | h | ⟨j, hj1, hj5, hbad⟩
    · exact absurd hs.1 (by omega)
    · rw [hs.2.1] at h
      simp at h
    · exact absurd (hs.2.2.2.2.2 j hj1 hj5) hbad

theorem dictInsert_mem (m : List (List Char × List Int)) (k : List Char) (v : List Int)
    (kv : List Char × List Int) (h : kv ∈ dictInsert m k v) : kv = (k, v) ∨ kv ∈ m := by
  rw [dictInsert] at h
  split at h
  · rcases List.mem_map.mp h with ⟨q, hq, hfq⟩
    by_cases hq1 : q.1 = k
    · rw [if_pos hq1] at hfq
      exact Or.inl hfq.symm
    · rw [if_neg hq1] at hfq
      exact Or.inr (hfq ▸ hq)
  · rcases List.mem_append.mp h with h | h
    · exact Or.inr h
    · exact Or.inl (by simpa using h)

/-- The record-validity predicate maintained over the reader fold. -/
def validRecord (kv : List Char × List Int) : Prop :=
  kv.2.length = 5 ∧ ∀ v ∈ kv.2, 0 ≤ v ∧ v ≤ 9

theorem csvStep_preserves (acc : List (List Char × List Int) × List (List Char))
    (line : List Char) (hacc : ∀ kv ∈ acc.1, validRecord kv) :
    ∀ kv ∈ (csvStep acc line).1, validRecord kv := by
  intro kv hkv
  rw [csvStep] at hkv
  rcases hre : rowEntry (splitComma line) with _ | pr
  · rw [hre] at hkv
    exact hacc kv hkv
  · obtain ⟨p, ns⟩ := pr
    rw [hre] at hkv
    dsimp only at hkv
    rcases dictInsert_mem acc.1 p ns kv hkv with h | h
    · have hs := rowEntry_some (splitComma line) p ns hre
      rw [h]
      exact ⟨hs.2.2.2.1, hs.2.2.2.2.1⟩
    · exact hacc kv h

theorem foldl_csvStep_valid (lines : List (List Char)) :
    ∀ acc, (∀ kv ∈ acc.1, validRecord kv) →
      ∀ kv ∈ (lines.foldl csvStep acc).1, validRecord kv := by
  induction lines with
  | nil => intro acc hacc; simpa using hacc
  | cons l rest ih =>
    intro acc hacc
    exact ih (csvStep acc l) (csvStep_preserves acc l hacc)

/-- Inversion of a successful `get_period_data_from_csv`: the pair returned is
the reader fold over the data lines, with the period list sorted. -/
theorem get_period_data_inv (csv : List Char) (m : List (List Char × List Int))
    (ps : List (List Char)) (h : get_period_data_from_csv csv = some (m, ps)) :
    ∃ dataLines : List (List Char), m = (dataLines.foldl csvStep ([], [])).1 ∧
      ps = sortPeriods (dataLines.foldl csvStep ([], [])).2 := by
  rw [get_period_data_from_csv] at h
  by_cases hc : csv = []
  · rw [if_pos hc] at h
    simp at h
  · rw [if_neg hc] at h
    rcases hl : splitLines csv with _ | ⟨hd, dataLines⟩ <;> rw [hl] at h
    · simp at h
    · dsimp only at h
      split at h
      · simp at h
      · simp only [Option.some.injEq, Prod.mk.injEq] at h
        exact ⟨dataLines, h.1.symm, h.2.symm⟩

/-- C6: a row with fewer than 6 fields, a first field not matching the 4-7
digit period pattern, or a field among 1-5 that does not parse as an integer
in [0,9], contributes nothing to the accumulated map and period list; and
every record stored in a returned map has exactly 5 numbers, each in [0,9]. -/
theorem csv_row_validation :
    (∀ (acc : List (List Char × List Int) × List (List Char)) (line : List Char),
      ((splitComma line).length < 6 ∨ periodPat ((splitComma line).getD 0 []) = false ∨
        ∃ j, 1 ≤ j ∧ j ≤ 5 ∧
          ¬ ∃ v : Int, pyInt? ((splitComma line).getD j []) = some v ∧ 0 ≤ v ∧ v ≤ 9) →
      csvStep acc line = acc) ∧
    ∀ (csv : List Char) (m : List (List Char × List Int)) (ps : List (List Char)),
      get_period_data_from_csv csv = some (m, ps) →
      ∀ kv ∈ m, kv.2.length = 5 ∧ ∀ v ∈ kv.2, 0 ≤ v ∧ v ≤ 9 := by
  constructor
  · intro acc line hbad
    rw [csvStep, rowEntry_none_of_invalid (splitComma line) hbad]
  · intro csv m ps h kv hkv
    obtain ⟨dataLines, hm, _⟩ := get_period_data_inv csv m ps h
    exact foldl_csvStep_valid dataLines ([], []) (by simp) kv (hm ▸ hkv)

/-- Witness for C6: a row with an out-of-range digit is a no-op, and the map
parsed from a concrete valid table satisfies the record invariant. -/
theorem csv_row_validation_witness :
    csvStep ([], []) (("1000,1,2,3,4,12").toList) = ([], []) :=
  csv_row_validation.1 ([], []) (("1000,1,2,3,4,12").toList)
    (Or.inr (Or.inr ⟨5, by decide, by decide, by decide⟩))

/-- A concrete table whose two rows share the period `1000`. -/
def dupCsv : List Char := ("period,a,b,c,d,e\n1000,1,2,3,4,5\n1000,1,2,3,4,5").toList

/-- C3 counterexample: on a table whose two valid rows carry the same period,
the loader returns the period list `["1000", "1000"]`, which has a duplicate
and is not strictly ascending by numeric value. -/
theorem periods_duplicate_counterexample :
    (get_period_data_from_csv dupCsv).map Prod.snd =
        some [("1000").toList, ("1000").toList] ∧
      ¬ List.Pairwise (fun a b : List Char => digitsVal a < digitsVal b)
          [("1000").toList, ("1000").toList] ∧
      ¬ List.Nodup [("1000").toList, ("1000").toList] :=
  ⟨by decide, by decide, by decide⟩

/-- C3 amended: the returned period list is sorted in non-decreasing numeric
order; whenever its entries have pairwise distinct numeric values (in
particular whenever no two accepted rows share a numeric period value) it is
strictly ascending with no duplicates. -/
theorem periods_sorted_by_numeric_value (csv : List Char)
    (m : List (List Char × List Int)) (ps : List (List Char))
    (h : get_period_data_from_csv csv = some (m, ps)) :
    List.Pairwise periodLe ps ∧
      (List.Pairwise (fun a b => digitsVal a ≠ digitsVal b) ps →
        List.Pairwise (fun a b => digitsVal a < digitsVal b) ps ∧ ps.Nodup) := by
  obtain ⟨dataLines, _, hps⟩ := get_period_data_inv csv m ps h
  have hsorted : List.Pairwise periodLe ps := by
    rw [hps]
    exact List.sorted_insertionSort periodLe _
  refine ⟨hsorted, fun hne => ⟨?_, ?_⟩⟩
  · exact (hsorted.and hne).imp (fun hab => Nat.lt_of_le_of_ne hab.1 hab.2)
  · refine hne.imp ?_
    intro a b hab heq
    exact hab (by rw [heq])

/-- A concrete table with two valid rows of distinct periods, out of order. -/
def distinctCsv : List Char := ("p,a,b,c,d,e\n2000,1,2,3,4,5\n1000,5,4,3,2,1").toList

/-- Witness for the amended C3 at a concrete out-of-order table. -/
theorem periods_sorted_by_numeric_value_witness :
    List.Pairwise periodLe [("1000").toList, ("2000").toList] :=
  (periods_sorted_by_numeric_value distinctCsv
      [(("2000").toList, [1, 2, 3, 4, 5]), (("1000").toList, [5, 4, 3, 2, 1])]
      [("1000").toList, ("2000").toList] (by decide)).1

/-! ## Robust text read: `robust_file_read` (source lines 55-76)

If the file does not exist the function returns `None`; otherwise it tries
the encodings `['utf-8', 'gbk', 'latin-1']` in order, returning the first
successful read and `None` if all fail.  The file system and the codecs are
external: `fileExists` models `os.path.exists` and `decode e` models opening
and reading the file with encoding `e`, with `none` standing for the caught
`UnicodeDecodeError` / `IOError`. -/

inductive PyEncoding where
  | utf8
  | gbk
  | latin1
deriving DecidableEq

/-- Source line 68: `encodings = ['utf-8', 'gbk', 'latin-1']`. -/
def encodings : List PyEncoding := [PyEncoding.utf8, PyEncoding.gbk, PyEncoding.latin1]

/-- The `for encoding in encodings: try ... except ... continue` loop
(source lines 69-74). -/
def tryEncodings (decode : PyEncoding → Option (List Char)) : List PyEncoding → Option (List Char)
  | [] => none
  | e :: rest =>
    match decode e with
    | some s => some s
    | none => tryEncodings decode rest

/-- Source lines 55-76, `robust_file_read`. -/
def robust_file_read (fileExists : Bool) (decode : PyEncoding → Option (List Char)) :
    Option (List Char) :=
  if fileExists = false then none
  else tryEncodings decode encodings

/-- C9: `robust_file_read` returns `none` exactly when the file does not
exist or every encoding in the fixed ordered list fails, and any returned
content is the first successful decode in the order utf-8, gbk, latin-1. -/
theorem robust_read_first_success (fileExists : Bool)
    (decode : PyEncoding → Option (List Char)) :
    (robust_file_read fileExists decode = none ↔
      fileExists = false ∨ ∀ e ∈ encodings, decode e = none) ∧
    ∀ s, robust_file_read fileExists decode = some s →
      fileExists = true ∧
        (decode PyEncoding.utf8 = some s ∨
          (decode PyEncoding.utf8 = none ∧ decode PyEncoding.gbk = some s) ∨
          (decode PyEncoding.utf8 = none ∧ decode PyEncoding.gbk = none ∧
            decode PyEncoding.latin1 = some s)) := by
  cases fileExists with
  | false => simp [robust_file_read]
  | true =>
    rcases h1 : decode PyEncoding.utf8 with _ | s1 <;>
      rcases h2 : decode PyEncoding.gbk with _ | s2 <;>
        rcases h3 : decode PyEncoding.latin1 with _ | s3 <;>
          simp [robust_file_read, tryEncodings, encodings, h1, h2, h3]

/-- A concrete decoder for which only gbk succeeds. -/
def decodeGbkOnly : PyEncoding → Option (List Char)
  | PyEncoding.utf8 => none
  | PyEncoding.gbk => some (("你好").toList)
  | PyEncoding.latin1 => some []

/-- Witness for C9: with only gbk succeeding, the returned content is the
gbk decode, taken after utf-8 failed. -/
theorem robust_read_first_success_witness :
    true = true ∧
      (decodeGbkOnly PyEncoding.utf8 = some (("你好").toList) ∨
        (decodeGbkOnly PyEncoding.utf8 = none ∧
          decodeGbkOnly PyEncoding.gbk = some (("你好").toList)) ∨
        (decodeGbkOnly PyEncoding.utf8 = none ∧ decodeGbkOnly PyEncoding.gbk = none ∧
          decodeGbkOnly PyEncoding.latin1 = some (("你好").toList))) :=
  (robust_read_first_success true decodeGbkOnly).2 (("你好").toList) (by decide)

/-! ## Report locator: `find_matching_report` (source lines 123-158)

For each candidate file the body is searched for
`分析基于数据:\s*截至\s*(\d+)\s*期`; files whose captured group equals the
target period and whose path ends in `_(\d{8}_\d{6})\.txt` with a timestamp
`datetime.strptime` accepts become candidates `(timestamp, path)`; the
candidates are sorted descending (`sort(reverse=True)`, comparing the
timestamp first and the path second) and the first path is returned.
Directory contents are passed in as a list of `RFile` (the result of the
glob), `content = none` modelling an unreadable file. -/

/-- A file seen by the locator: its path and the result of reading it. -/
structure RFile where
  path : List Char
  content : Option (List Char)

/-- The literal prefix `分析基于数据:` of the cutoff pattern. -/
def cutoffLabel : List Char := ("分析基于数据:").toList

/-- The literal `截至` of the cutoff pattern. -/
def jiezhi : List Char := ("截至").toList

/-- Attempt to match `分析基于数据:\s*截至\s*(\d+)\s*期` at the start of `s`,
returning the captured digit group.  Every character class of the pattern is
disjoint from what follows it, so the greedy match is this deterministic
scan. -/
def matchCutoffAt (s : List Char) : Option (List Char) :=
  if cutoffLabel.isPrefixOf s then
    let s1 := (s.drop cutoffLabel.length).dropWhile isPySpace
    if jiezhi.isPrefixOf s1 then
      let s2 := (s1.drop jiezhi.length).dropWhile isPySpace
      if s2.takeWhile Char.isDigit = [] then none
      else
        match (s2.dropWhile Char.isDigit).dropWhile isPySpace with
        | c :: _ => if c = '期' then some (s2.takeWhile Char.isDigit) else none
        | [] => none
    else none
  else none

/-- `re.search` for the cutoff pattern: first match, scanning left to right,
advancing one character after a failed attempt. -/
def scanCutoff : List Char → Option (List Char)
  | [] => none
  | c :: rest =>
    match matchCutoffAt (c :: rest) with
    | some g => some g
    | none => scanCutoff rest

/-- Proleptic Gregorian leap-year test, as used by `datetime`. -/
def isLeapYear (y : Nat) : Bool :=
  y % 4 == 0 && (y % 100 != 0 || y % 400 == 0)

/-- Days in a month, as validated by the `datetime` constructor. -/
def daysInMonth (y m : Nat) : Nat :=
  if m = 2 then (if isLeapYear y then 29 else 28)
  else if m = 4 ∨ m = 6 ∨ m = 9 ∨ m = 11 then 30
  else 31

/-- Parse and validate a 20-character suffix `_YYYYMMDD_HHMMSS.txt` the way
`re.search(r'_(\d{8}_\d{6})\.txt$', ...)` followed by
`datetime.strptime(..., "%Y%m%d_%H%M%S")` does, returning the timestamp as
the number `YYYYMMDDHHMMSS` (fixed-width decimal, so numeric order is
chronological order). -/
def tsSuffix (suf : List Char) : Option Nat :=
  match suf with
  | ['_', y1, y2, y3, y4, o1, o2, d1, d2, '_', h1, h2, i1, i2, s1, s2, '.', 't', 'x', 't'] =>
    if [y1, y2, y3, y4, o1, o2, d1, d2, h1, h2, i1, i2, s1, s2].all Char.isDigit then
      let y := digitsVal [y1, y2, y3, y4]
      let mo := digitsVal [o1, o2]
      let d := digitsVal [d1, d2]
      if 1 ≤ y ∧ 1 ≤ mo ∧ mo ≤ 12 ∧ 1 ≤ d ∧ d ≤ daysInMonth y mo ∧
          digitsVal [h1, h2] ≤ 23 ∧ digitsVal [i1, i2] ≤ 59 ∧ digitsVal [s1, s2] ≤ 59 then
        some (digitsVal [y1, y2, y3, y4, o1, o2, d1, d2, h1, h2, i1, i2, s1, s2])
      else none
    else none
  | _ => none

/-- The filename-timestamp extraction of source lines 143-146.  A match of
`_(\d{8}_\d{6})\.txt$` has fixed length 20 and is anchored at the end, so it
exists exactly when the last 20 characters have that shape. -/
def filenameTimestamp (path : List Char) : Option Nat :=
  if path.length < 20 then none else tsSuffix (path.drop (path.length - 20))

/-- The candidate list built by the `for file_path in glob.glob(...)` loop
(source lines 136-149): readable non-empty content whose declared cutoff
equals the target and whose filename embeds a valid timestamp. -/
def reportCandidates (files : List RFile) (target : List Char) : List (Nat × List Char) :=
  files.filterMap (fun f =>
    match f.content with
    | none => none
    | some c =>
      if c = [] then none
      else
        match scanCutoff c with
        | some d =>
          if d = target then
            match filenameTimestamp f.path with
            | some ts => some (ts, f.path)
            | none => none
          else none
        | none => none)

/-- Python string comparison (by code points, lexicographic). -/
def strLeB : List Char → List Char → Bool
  | [], _ => true
  | _ :: _, [] => false
  | a :: as2, b :: bs => if a.toNat = b.toNat then strLeB as2 bs else decide (a.toNat < b.toNat)

/-- Descending tuple order on `(timestamp, path)` candidates: the order in
which `candidates.sort(reverse=True)` arranges them. -/
def candGe (a b : Nat × List Char) : Prop :=
  b.1 < a.1 ∨ (a.1 = b.1 ∧ strLeB b.2 a.2 = true)

theorem strLeB_total (a : List Char) : ∀ b, strLeB a b = true ∨ strLeB b a = true := by
  induction a with
  | nil => intro b; left; rfl
  | cons x xs ih =>
    intro b
    cases b with
    | nil => right; rfl
    | cons y ys =>
      by_cases hxy : x.toNat = y.toNat
      · rcases ih ys with h | h
        · left; simpa [strLeB, hxy] using h
        · right; simpa [strLeB, hxy.symm] using h
      · rcases Nat.lt_or_ge x.toNat y.toNat with h | h
        · left; simp [strLeB, hxy, h]
        · right
          have hne : ¬y.toNat = x.toNat := fun e => hxy e.symm
          have hlt : y.toNat < x.toNat := Nat.lt_of_le_of_ne h hne
          rw [strLeB, if_neg hne]
          simpa using hlt

theorem strLeB_trans (a : List Char) :
    ∀ b c, strLeB a b = true → strLeB b c = true → strLeB a c = true := by
  induction a with
  | nil => intro b c _ _; rfl
  | cons x xs ih =>
    intro b c hab hbc
    cases b with
    | nil => exact absurd hab (by simp [strLeB])
    | cons y ys =>
      cases c with
      | nil => exact absurd hbc (by simp [strLeB])
      | cons z zs =>
        by_cases hxy : x.toNat = y.toNat
        · by_cases hyz : y.toNat = z.toNat
          · have hxz : x.toNat = z.toNat := hxy.trans hyz
            rw [strLeB, if_pos hxy] at hab
            rw [strLeB, if_pos hyz] at hbc
            rw [strLeB, if_pos hxz]
            exact ih ys zs hab hbc
          · rw [strLeB, if_neg hyz] at hbc
            have hyz2 : y.toNat < z.toNat := by simpa using hbc
            have hxz : x.toNat < z.toNat := hxy ▸ hyz2
            rw [strLeB, if_neg (Nat.ne_of_lt hxz)]
            simpa using hxz
        · rw [strLeB, if_neg hxy] at hab
          have hxy2 : x.toNat < y.toNat := by simpa using hab
          by_cases hyz : y.toNat = z.toNat
          · have hxz : x.toNat < z.toNat := hyz ▸ hxy2
            rw [strLeB, if_neg (Nat.ne_of_lt hxz)]
            simpa using hxz
          · rw [strLeB, if_neg hyz] at hbc
            have hyz2 : y.toNat < z.toNat := by simpa using hbc
            have hxz : x.toNat < z.toNat := Nat.lt_trans hxy2 hyz2
            rw [strLeB, if_neg (Nat.ne_of_lt hxz)]
            simpa using hxz

instance : DecidableRel candGe := fun a b =>
  inferInstanceAs (Decidable (b.1 < a.1 ∨ (a.1 = b.1 ∧ strLeB b.2 a.2 = true)))

instance : IsTotal (Nat × List Char) candGe :=
  ⟨fun a b => by
    rcases Nat.lt_trichotomy a.1 b.1 with h | h | h
    · exact Or.inr (Or.inl h)
    · rcases strLeB_total a.2 b.2 with hs | hs
      · exact Or.inr (Or.inr ⟨h.symm, hs⟩)
      · exact Or.inl (Or.inr ⟨h, hs⟩)
    · exact Or.inl (Or.inl h)⟩

instance : IsTrans (Nat × List Char) candGe :=
  ⟨fun a b c hab hbc => by
    rcases hab with h1 | ⟨h1, hs1⟩
    · rcases hbc with h2 | ⟨h2, _⟩
      · exact Or.inl (Nat.lt_trans h2 h1)
      · exact Or.inl (h2 ▸ h1)
    · rcases hbc with h2 | ⟨h2, hs2⟩
      · exact Or.inl (h1 ▸ h2)
      · exact Or.inr ⟨h1.trans h2, strLeB_trans c.2 b.2 a.2 hs2 hs1⟩⟩

/-- Source lines 123-158, `find_matching_report`: sort the candidates in
descending `(timestamp, path)` order and return the first path, `none` when
there are no candidates.  `list.sort` is stable, as is insertion sort, so
they produce the same arrangement. -/
def find_matching_report (files : List RFile) (target : List Char) : Option (List Char) :=
  match List.insertionSort candGe (reportCandidates files target) with
  | [] => none
  | c :: _ => some c.2

/-- C5: any path the locator returns is a candidate — its file was readable
and non-empty, declared exactly the target cutoff, and carried a parseable
filename timestamp — and its timestamp is greatest among all candidates;
files lacking a matching declared cutoff or a parseable timestamp are never
candidates, hence never selected. -/
theorem report_selection_latest (files : List RFile) (target : List Char) :
    (∀ p, find_matching_report files target = some p →
      ∃ ts, (ts, p) ∈ reportCandidates files target ∧
        ∀ q ∈ reportCandidates files target, q.1 ≤ ts) ∧
    ∀ ts q, (ts, q) ∈ reportCandidates files target →
      ∃ f ∈ files, f.path = q ∧ ∃ c, f.content = some c ∧ c ≠ [] ∧
        scanCutoff c = some target ∧ filenameTimestamp q = some ts := by
  constructor
  · intro p hp
    rw [find_matching_report] at hp
    rcases hl : List.insertionSort candGe (reportCandidates files target) with _ | ⟨c, rest⟩ <;>
      rw [hl] at hp
    · simp at hp
    · have hc : c.2 = p := by simpa using hp
      have hsorted : List.Pairwise candGe (c :: rest) := by
        rw [← hl]
        exact List.sorted_insertionSort candGe (reportCandidates files target)
      have hmemc : c ∈ reportCandidates files target := by
        have : c ∈ List.insertionSort candGe (reportCandidates files target) := by
          rw [hl]; exact List.mem_cons_self c rest
        exact (List.perm_insertionSort candGe (reportCandidates files target)).subset this
      refine ⟨c.1, by rwa [← hc], ?_⟩
      intro q hq
      have hq2 : q ∈ c :: rest := by
        rw [← hl]
        exact ((List.perm_insertionSort candGe (reportCandidates files target)).symm.subset) hq
      rcases List.mem_cons.mp hq2 with h | h
      · rw [h]
      · rcases (List.pairwise_cons.mp hsorted).1 q h with hlt | ⟨heq, _⟩
        · exact Nat.le_of_lt hlt
        · exact Nat.le_of_eq heq.symm
  · intro ts q hq
    rw [reportCandidates] at hq
    rcases List.mem_filterMap.mp hq with ⟨f, hf, hval⟩
    refine ⟨f, hf, ?_⟩
    rcases hcont : f.content with _ | c <;> rw [hcont] at hval
    · simp at hval
    · dsimp only at hval
      by_cases hce : c = []
      · rw [if_pos hce] at hval
        simp at hval
      · rw [if_neg hce] at hval
        rcases hsc : scanCutoff c with _ | d <;> rw [hsc] at hval
        · simp at hval
        · dsimp only at hval
          by_cases hd : d = target
          · rw [if_pos hd] at hval
            rcases hts : filenameTimestamp f.path with _ | ts2 <;> rw [hts] at hval
            · simp at hval
            · dsimp only at hval
              simp only [Option.some.injEq, Prod.mk.injEq] at hval
              obtain ⟨hts2, hpath⟩ := hval
              refine ⟨hpath, c, rfl, hce, ?_, ?_⟩
              · rw [hsc, hd]
              · rw [← hpath, hts, hts2]
          · rw [if_neg hd] at hval
            simp at hval

/-- Two concrete report files: equal declared cutoff `100`, the second with
the later filename timestamp. -/
def sampleFiles : List RFile :=
  [{ path := ("pl5_analysis_output_20240101_120000.txt").toList,
     content := some (("分析基于数据: 截至 100 期").toList) },
   { path := ("pl5_analysis_output_20240102_120000.txt").toList,
     content := some (("分析基于数据: 截至 100 期").toList) }]

/-- Witness for C5: with the two sample files the locator picks the one with
the later timestamp, and that choice is a maximal candidate. -/
theorem report_selection_latest_witness :
    ∃ ts, (ts, ("pl5_analysis_output_20240102_120000.txt").toList) ∈
        reportCandidates sampleFiles (("100").toList) ∧
      ∀ q ∈ reportCandidates sampleFiles (("100").toList), q.1 ≤ ts :=
  (report_selection_latest sampleFiles (("100").toList)).1
    (("pl5_analysis_output_20240102_120000.txt").toList) (by decide)

/-! ## Ledger manager: `manage_report` (source lines 297-376)

The existing ledger text is split on the fixed delimiter
`"\n" + "="*80 + "\n"`; each section with non-whitespace content is an error
log if it contains `"ERROR"` or `"错误"`, else a normal record if it contains
`"评估时间:"`, else dropped.  A new rendered entry (resp. error) is inserted
at the front of its list, the lists are truncated to 10 and 20 entries, and
the file is rewritten as the normal records followed — when error logs
remain — by an empty part, the header `"错误日志:"` and the error logs, all
joined by the delimiter.  Reading and writing the file and `datetime.now()`
are external: the existing content and the timestamp string are parameters. -/

/-- Source line 39: `MAX_NORMAL_RECORDS = 10`. -/
def MAX_NORMAL_RECORDS : Nat := 10

/-- Source line 40: `MAX_ERROR_LOGS = 20`. -/
def MAX_ERROR_LOGS : Nat := 20

/-- The first 81 characters of the delimiter (`"\n" + "="*80`): the
self-overlap core used in the cleanliness side conditions below. -/
def BAR81 : List Char := '\n' :: List.replicate 80 '='

/-- The section delimiter `"\n" + "="*80 + "\n"` of source lines 318 and 373. -/
def DELIM : List Char := '\n' :: (List.replicate 80 '=' ++ ['\n'])

theorem BAR81_append_newline : BAR81 ++ ['\n'] = DELIM := by
  simp [BAR81, DELIM]

theorem DELIM_length : DELIM.length = 82 := by
  simp [DELIM]

/-- Python `existing_content.split(delimiter)`: leftmost, non-overlapping.
The fuel argument makes the recursion structural; each step consumes at
least one character, so fuel equal to the input length (as supplied by
`splitSections`) is never exhausted. -/
def splitSectionsFuel : Nat → List Char → List (List Char)
  | _, [] => [[]]
  | 0, s => [s]
  | fuel + 1, c :: rest =>
    if DELIM.isPrefixOf (c :: rest) then [] :: splitSectionsFuel fuel (rest.drop 81)
    else
      match splitSectionsFuel fuel rest with
      | [] => [[c]]
      | l :: ls => (c :: l) :: ls

/-- `existing_content.split("\n" + "="*80 + "\n")` (source line 318). -/
def splitSections (s : List Char) : List (List Char) := splitSectionsFuel s.length s

/-- Python `needle in haystack` on strings. -/
def containsSub (needle : List Char) : List Char → Bool
  | [] => needle.isEmpty
  | c :: rest => needle.isPrefixOf (c :: rest) || containsSub needle rest

/-- A section is clean when it does not contain `"\n" + "="*80`.  Sections
that are clean cannot create or absorb delimiter occurrences when joined
with the delimiter, which makes split the left inverse of join. -/
def Clean (s : List Char) : Prop := containsSub BAR81 s = false

instance (s : List Char) : Decidable (Clean s) :=
  inferInstanceAs (Decidable (containsSub BAR81 s = false))

/-- `section.strip()` is truthy: some character is not whitespace. -/
def nonBlank (s : List Char) : Bool := !(s.all isPySpace)

/-- The error markers `"ERROR"` and `"错误"` of source line 324. -/
def isErrSec (s : List Char) : Bool :=
  containsSub (("ERROR").toList) s || containsSub (("错误").toList) s

/-- The normal-record marker `"评估时间:"` of source line 326. -/
def evalMarker : List Char := ("评估时间:").toList

def hasEvalMark (s : List Char) : Bool := containsSub evalMarker s

/-- The classification loop of source lines 322-327, returning
`(normal_records, error_logs)` in traversal order. -/
def splitRecords : List (List Char) → List (List Char) × List (List Char)
  | [] => ([], [])
  | s :: rest =>
    let r := splitRecords rest
    if nonBlank s then
      if isErrSec s then (r.1, s :: r.2)
      else if hasEvalMark s then (s :: r.1, r.2)
      else r
    else r

/-- The fields of `new_entry` consumed by `manage_report`
(source lines 331-348). -/
structure EntryData where
  period : List Char
  prize_numbers : List Nat
  recommendation_count : Nat
  winning_count : Nat
  total_prize : Nat
  winning_details : List WinDetail

/-- Thousands-separator grouping of a reversed digit string, for Python's
`{:,}` format. -/
def group3 : List Char → List Char
  | a :: b :: c :: d :: rest => a :: b :: c :: ',' :: group3 (d :: rest)
  | ds => ds

/-- Python `f"{n:,}"` for a natural number. -/
def commaFmt (n : Nat) : List Char := (group3 ((Nat.toDigits 10 n).reverse)).reverse

/-- `''.join(map(str, numbers))` for digit lists. -/
def digitsToChars (ns : List Nat) : List Char := ns.map (fun d => Char.ofNat (48 + d))

/-- One line of the winning-details block (source line 345). -/
def renderDetail (d : WinDetail) : List Char :=
  ("  第").toList ++ Nat.toDigits 10 d.index ++ ("注: ").toList ++ digitsToChars d.numbers ++
    (" - ").toList ++ d.prize_type.toList ++ (" - ").toList ++ commaFmt d.prize_amount ++
    ("元").toList

/-- The `entry_lines` list of source lines 331-346 (the script always passes
a period, so the `'未知'` default of `.get` is not modelled). -/
def entryLines (now : List Char) (e : EntryData) : List (List Char) :=
  [("评估时间: ").toList ++ now,
   ("评估期号: ").toList ++ e.period,
   ("开奖号码: ").toList ++ digitsToChars e.prize_numbers,
   ("推荐数量: ").toList ++ Nat.toDigits 10 e.recommendation_count ++ ("注").toList,
   ("中奖数量: ").toList ++ Nat.toDigits 10 e.winning_count ++ ("注").toList,
   ("总奖金: ").toList ++ commaFmt e.total_prize ++ ("元").toList,
   []] ++
  (if e.winning_details = [] then []
   else [("中奖详情:").toList] ++ e.winning_details.map renderDetail ++ [[]])

/-- `"\n".join(entry_lines)` (source line 348). -/
def renderEntry (now : List Char) (e : EntryData) : List Char :=
  List.intercalate ['\n'] (entryLines now e)

/-- The error entry rendered on source line 351:
`f"错误时间: {now}\n错误信息: {new_error}\n"`. -/
def renderError (now msg : List Char) : List Char :=
  ("错误时间: ").toList ++ now ++ ('\n' :: (("错误信息: ").toList ++ msg ++ ['\n']))

/-- The header `"错误日志:"` of source line 367. -/
def headerLine : List Char := ("错误日志:").toList

/-- The truncated normal-record list written back
(source lines 329-348 and 355). -/
def keptNormals (existing : List Char) (newEntry : Option (List Char)) : List (List Char) :=
  (match newEntry with
   | some e => e :: (splitRecords (splitSections existing)).1
   | none => (splitRecords (splitSections existing)).1).take MAX_NORMAL_RECORDS

/-- The truncated error-log list written back (source lines 350-352 and 356). -/
def keptErrors (existing : List Char) (newError : Option (List Char)) : List (List Char) :=
  (match newError with
   | some e => e :: (splitRecords (splitSections existing)).2
   | none => (splitRecords (splitSections existing)).2).take MAX_ERROR_LOGS

/-- The `new_content_parts` assembly of source lines 359-368. -/
def assembleParts (normals errors : List (List Char)) : List (List Char) :=
  normals ++ (if errors = [] then [] else (if normals = [] then [] else [[]]) ++ headerLine :: errors)

/-- Source lines 297-376, `manage_report`: the text written back over the
previous ledger content. -/
def manage_report (now existing : List Char) (newEntry : Option EntryData)
    (newError : Option (List Char)) : List Char :=
  List.intercalate DELIM
    (assembleParts (keptNormals existing (newEntry.map (renderEntry now)))
      (keptErrors existing (newError.map (renderError now))))

/-! ### Split / join round trip -/

theorem containsSub_of_isPrefixOf (n s : List Char) (h : n.isPrefixOf s = true) :
    containsSub n s = true := by
  cases s with
  | nil =>
    cases n with
    | nil => rfl
    | cons c r => simp [List.isPrefixOf] at h
  | cons c rest => simp [containsSub, h]

theorem containsSub_of_prefix (n s : List Char) (h : n <+: s) : containsSub n s = true :=
  containsSub_of_isPrefixOf n s (List.isPrefixOf_iff_prefix.mpr h)

theorem containsSub_cons (n : List Char) (c : Char) (rest : List Char)
    (h : containsSub n rest = true) : containsSub n (c :: rest) = true := by
  simp [containsSub, h]

theorem clean_tail (c : Char) (rest : List Char) (h : Clean (c :: rest)) : Clean rest := by
  have h2 : containsSub BAR81 (c :: rest) = false := h
  rw [containsSub, Bool.or_eq_false_iff] at h2
  exact h2.2

theorem clean_nil : Clean ([] : List Char) := rfl

theorem bar81_prefix_delim : BAR81 <+: DELIM := ⟨['\n'], BAR81_append_newline⟩

theorem not_clean_of_delim_prefix (s : List Char) (h : DELIM <+: s) :
    containsSub BAR81 s = true :=
  containsSub_of_prefix BAR81 s (bar81_prefix_delim.trans h)

theorem splitSectionsFuel_congr (n : Nat) :
    ∀ (s : List Char), s.length ≤ n → ∀ f1 f2, s.length ≤ f1 → s.length ≤ f2 →
      splitSectionsFuel f1 s = splitSectionsFuel f2 s := by
  induction n with
  | zero =>
    intro s hs f1 f2 _ _
    have hnil : s = [] := List.length_eq_zero.mp (Nat.le_zero.mp hs)
    subst hnil
    cases f1 <;> cases f2 <;> rfl
  | succ n ih =>
    intro s hs f1 f2 h1 h2
    cases s with
    | nil => cases f1 <;> cases f2 <;> rfl
    | cons c rest =>
      cases f1 with
      | zero => simp at h1
      | succ g1 =>
        cases f2 with
        | zero => simp at h2
        | succ g2 =>
          simp only [splitSectionsFuel]
          by_cases hd : DELIM.isPrefixOf (c :: rest) = true
          · rw [if_pos hd, if_pos hd]
            have hdroplen : (rest.drop 81).length ≤ rest.length := by
              rw [List.length_drop]; omega
            have := ih (rest.drop 81) (by simp at hs; omega) g1 g2
              (by simp at h1; omega) (by simp at h2; omega)
            rw [this]
          · rw [if_neg hd, if_neg hd]
            have := ih rest (by simp at hs; omega) g1 g2
              (by simp at h1; omega) (by simp at h2; omega)
            rw [this]

/-- The only self-overlap of the delimiter: `DELIM.drop m` is a prefix-sized
copy of `DELIM` only at `m = 81`. -/
theorem delim_self_overlap (m : Nat) (h1 : 1 ≤ m) (h2 : m ≤ 81)
    (he : DELIM.drop m = DELIM.take (82 - m)) : m = 81 := by
  have hb : ∀ k : Nat, k < 82 →
      (1 ≤ k → DELIM.drop k = DELIM.take (82 - k) → k = 81) := by decide
  exact hb m (by omega) h1 he

theorem not_delim_prefix (u t : List Char) (hne : u ≠ []) (hc : Clean u) :
    ¬ DELIM.isPrefixOf (u ++ (DELIM ++ t)) = true := by
  intro h
  have hp : DELIM <+: u ++ (DELIM ++ t) := List.isPrefixOf_iff_prefix.mp h
  obtain ⟨r, hr⟩ := hp
  have hulen : 1 ≤ u.length := List.length_pos.mpr hne
  by_cases hlen : u.length < 82
  · have hu : DELIM.take u.length = u := by
      have h1 := congrArg (List.take u.length) hr
      rw [List.take_left] at h1
      rw [List.take_append_eq_append_take, Nat.sub_eq_zero_of_le (by rw [DELIM_length]; omega),
        List.take_zero, List.append_nil] at h1
      exact h1
    have hdrop : DELIM.drop u.length ++ r = DELIM ++ t := by
      have h2 := congrArg (List.drop u.length) hr
      rw [List.drop_left] at h2
      rw [List.drop_append_eq_append_drop, Nat.sub_eq_zero_of_le (by rw [DELIM_length]; omega),
        List.drop_zero] at h2
      exact h2
    have hdd : DELIM.drop u.length = DELIM.take (82 - u.length) := by
      have hdl : (DELIM.drop u.length).length = 82 - u.length := by
        rw [List.length_drop, DELIM_length]
      have h3 := congrArg (List.take (82 - u.length)) hdrop
      rw [List.take_left' hdl, List.take_append_eq_append_take,
        show 82 - u.length - DELIM.length = 0 by rw [DELIM_length]; omega,
        List.take_zero, List.append_nil] at h3
      exact h3
    have hm : u.length = 81 := delim_self_overlap u.length hulen (by omega) hdd
    have hu81 : u = BAR81 := by
      rw [← hu, hm]
      decide
    have hcontra : containsSub BAR81 u = true := by
      rw [hu81]
      decide
    have hc2 : containsSub BAR81 u = false := hc
    rw [hc2] at hcontra
    exact Bool.false_ne_true hcontra
  · have hu : DELIM = List.take 82 u := by
      have h1 := congrArg (List.take 82) hr
      rw [List.take_left' DELIM_length, List.take_append_eq_append_take,
        show 82 - u.length = 0 by omega, List.take_zero, List.append_nil] at h1
      exact h1
    have hpre : DELIM <+: u := hu ▸ List.take_prefix 82 u
    have hcontra : containsSub BAR81 u = true := not_clean_of_delim_prefix u hpre
    have hc2 : containsSub BAR81 u = false := hc
    rw [hc2] at hcontra
    exact Bool.false_ne_true hcontra

theorem splitFuel_clean (s : List Char) :
    ∀ fuel, s.length ≤ fuel → Clean s → splitSectionsFuel fuel s = [s] := by
  induction s with
  | nil => intro fuel _ _; cases fuel <;> rfl
  | cons c rest ih =>
    intro fuel hf hc
    cases fuel with
    | zero => simp at hf
    | succ g =>
      simp only [splitSectionsFuel]
      have hnd : ¬ DELIM.isPrefixOf (c :: rest) = true := by
        intro hd
        have : containsSub BAR81 (c :: rest) = true :=
          not_clean_of_delim_prefix _ (List.isPrefixOf_iff_prefix.mp hd)
        have hc2 : containsSub BAR81 (c :: rest) = false := hc
        rw [hc2] at this
        exact Bool.false_ne_true this
      rw [if_neg hnd, ih g (by simp at hf; omega) (clean_tail c rest hc)]

theorem splitFuel_append (a : List Char) :
    ∀ (t : List Char) (fuel : Nat), a.length + 82 + t.length ≤ fuel → Clean a →
      splitSectionsFuel fuel (a ++ (DELIM ++ t)) = a :: splitSections t := by
  induction a with
  | nil =>
    intro t fuel hf _
    cases fuel with
    | zero => omega
    | succ g =>
      rw [List.nil_append]
      have hsplit : DELIM ++ t = '\n' :: ((List.replicate 80 '=' ++ ['\n']) ++ t) := by
        simp [DELIM]
      rw [hsplit]
      simp only [splitSectionsFuel]
      have hpre : DELIM.isPrefixOf ('\n' :: ((List.replicate 80 '=' ++ ['\n']) ++ t)) = true := by
        rw [← hsplit]
        exact List.isPrefixOf_iff_prefix.mpr ⟨t, rfl⟩
      rw [if_pos hpre]
      have hdrop : ((List.replicate 80 '=' ++ ['\n']) ++ t).drop 81 = t :=
        List.drop_left' (by simp)
      rw [hdrop]
      have hgt : t.length ≤ g := by omega
      rw [splitSections]
      exact congrArg _ (splitSectionsFuel_congr t.length t le_rfl g t.length hgt le_rfl)
  | cons x a ih =>
    intro t fuel hf hc
    cases fuel with
    | zero => omega
    | succ g =>
      rw [show (x :: a) ++ (DELIM ++ t) = x :: (a ++ (DELIM ++ t)) from rfl]
      simp only [splitSectionsFuel]
      have hnp : ¬ DELIM.isPrefixOf (x :: (a ++ (DELIM ++ t))) = true := by
        have := not_delim_prefix (x :: a) t (by simp) hc
        simpa [List.cons_append] using this
      rw [if_neg hnp, ih t g (by simp at hf ⊢; omega) (clean_tail x a hc)]

theorem intercalate_two (sep a b : List Char) (rest : List (List Char)) :
    List.intercalate sep (a :: b :: rest) = a ++ sep ++ List.intercalate sep (b :: rest) := by
  simp [List.intercalate, List.intersperse_cons_cons, List.append_assoc]

theorem intercalate_one (sep a : List Char) : List.intercalate sep [a] = a := by
  simp [List.intercalate]

theorem splitSections_intercalate : ∀ (parts : List (List Char)), parts ≠ [] →
    (∀ p ∈ parts, Clean p) → splitSections (List.intercalate DELIM parts) = parts := by
  intro parts
  induction parts with
  | nil => intro h; exact absurd rfl h
  | cons p rest ih =>
    intro _ hcl
    cases rest with
    | nil =>
      rw [intercalate_one]
      exact splitFuel_clean p p.length le_rfl (hcl p (by simp))
    | cons q rest2 =>
      rw [intercalate_two, List.append_assoc]
      rw [splitSections]
      have hlen : p.length + 82 + (List.intercalate DELIM (q :: rest2)).length ≤
          (p ++ (DELIM ++ List.intercalate DELIM (q :: rest2))).length := by
        simp [List.length_append, DELIM_length]
        omega
      rw [splitFuel_append p (List.intercalate DELIM (q :: rest2)) _ hlen (hcl p (by simp))]
      rw [ih (by simp) (fun x hx => hcl x (List.mem_cons_of_mem p hx))]

theorem splitRecords_eq_filter (l : List (List Char)) :
    splitRecords l = (l.filter (fun s => nonBlank s && !isErrSec s && hasEvalMark s),
                      l.filter (fun s => nonBlank s && isErrSec s)) := by
  induction l with
  | nil => rfl
  | cons s rest ih =>
    simp only [splitRecords, ih, List.filter_cons]
    by_cases hb : nonBlank s = true <;> by_cases he : isErrSec s = true <;>
      by_cases hv : hasEvalMark s = true <;>
        simp [hb, he, hv]

/-! ### Classification facts about sections and rendered entries -/

theorem mem_splitRecords_normal (l : List (List Char)) (s : List Char)
    (h : s ∈ (splitRecords l).1) :
    nonBlank s = true ∧ isErrSec s = false ∧ hasEvalMark s = true := by
  rw [splitRecords_eq_filter] at h
  have h2 := (List.mem_filter.mp h).2
  simp only [Bool.and_eq_true, Bool.not_eq_true'] at h2
  exact ⟨h2.1.1, h2.1.2, h2.2⟩

theorem mem_splitRecords_err (l : List (List Char)) (s : List Char)
    (h : s ∈ (splitRecords l).2) :
    nonBlank s = true ∧ isErrSec s = true := by
  rw [splitRecords_eq_filter] at h
  have h2 := (List.mem_filter.mp h).2
  simp only [Bool.and_eq_true] at h2
  exact h2

theorem nonBlank_cons_of_nonspace (c : Char) (rest : List Char) (h : isPySpace c = false) :
    nonBlank (c :: rest) = true := by
  simp [nonBlank, List.all_cons, h]

theorem renderEntry_shape (now : List Char) (e : EntryData) :
    ∃ r, renderEntry now e = ("评估时间: ").toList ++ (now ++ r) := by
  rw [renderEntry, entryLines]
  rw [show ([("评估时间: ").toList ++ now,
        ("评估期号: ").toList ++ e.period,
        ("开奖号码: ").toList ++ digitsToChars e.prize_numbers,
        ("推荐数量: ").toList ++ Nat.toDigits 10 e.recommendation_count ++ ("注").toList,
        ("中奖数量: ").toList ++ Nat.toDigits 10 e.winning_count ++ ("注").toList,
        ("总奖金: ").toList ++ commaFmt e.total_prize ++ ("元").toList,
        []] ++
        (if e.winning_details = [] then []
         else [("中奖详情:").toList] ++ e.winning_details.map renderDetail ++ [[]])) =
      (("评估时间: ").toList ++ now) ::
        ((("评估期号: ").toList ++ e.period) ::
          ([("开奖号码: ").toList ++ digitsToChars e.prize_numbers,
            ("推荐数量: ").toList ++ Nat.toDigits 10 e.recommendation_count ++ ("注").toList,
            ("中奖数量: ").toList ++ Nat.toDigits 10 e.winning_count ++ ("注").toList,
            ("总奖金: ").toList ++ commaFmt e.total_prize ++ ("元").toList,
            []] ++
            (if e.winning_details = [] then []
             else [("中奖详情:").toList] ++ e.winning_details.map renderDetail ++ [[]])))
      from rfl]
  rw [intercalate_two]
  exact ⟨['\n'] ++ List.intercalate ['\n'] _, by rw [List.append_assoc, List.append_assoc]⟩

theorem renderEntry_hasEval (now : List Char) (e : EntryData) :
    hasEvalMark (renderEntry now e) = true := by
  obtain ⟨r, hr⟩ := renderEntry_shape now e
  rw [hasEvalMark, hr]
  apply containsSub_of_prefix
  refine ⟨[' '] ++ (now ++ r), ?_⟩
  rw [show ("评估时间: ").toList = evalMarker ++ [' '] from by decide] at *
  rw [List.append_assoc]

theorem renderEntry_nonBlank (now : List Char) (e : EntryData) :
    nonBlank (renderEntry now e) = true := by
  obtain ⟨r, hr⟩ := renderEntry_shape now e
  rw [hr]
  rw [show ("评估时间: ").toList ++ (now ++ r) = '评' :: (("估时间: ").toList ++ (now ++ r))
    from rfl]
  exact nonBlank_cons_of_nonspace _ _ (by decide)

theorem headerLine_isErr : isErrSec headerLine = true := by decide

theorem headerLine_clean : Clean headerLine := by
  show containsSub BAR81 headerLine = false
  decide

theorem nonBlank_nil : nonBlank ([] : List Char) = false := rfl

/-! ### The two ledger claims -/

/-- C8: the rewrite classifies each delimiter-separated section with
non-whitespace content as an error log when it contains `"ERROR"` or
`"错误"`, otherwise as a normal record when it contains `"评估时间:"`,
drops the rest, and writes back the retained (truncated, newly-prepended)
normal records followed — only when error logs remain — by an empty part,
the header line and the error logs, joined by the fixed delimiter. -/
theorem ledger_rewrite_classification (now existing : List Char) (ne : Option EntryData)
    (nerr : Option (List Char)) :
    manage_report now existing ne nerr =
      List.intercalate DELIM
        ((match ne with
          | some e => renderEntry now e ::
              (splitSections existing).filter
                (fun s => nonBlank s && !isErrSec s && hasEvalMark s)
          | none => (splitSections existing).filter
              (fun s => nonBlank s && !isErrSec s && hasEvalMark s)).take 10 ++
          (if ((match nerr with
                | some m => renderError now m ::
                    (splitSections existing).filter (fun s => nonBlank s && isErrSec s)
                | none => (splitSections existing).filter
                    (fun s => nonBlank s && isErrSec s)).take 20) = [] then []
           else
             (if ((match ne with
                   | some e => renderEntry now e ::
                       (splitSections existing).filter
                         (fun s => nonBlank s && !isErrSec s && hasEvalMark s)
                   | none => (splitSections existing).filter
                       (fun s => nonBlank s && !isErrSec s && hasEvalMark s)).take 10) = []
              then [] else [[]]) ++
               headerLine ::
                 ((match nerr with
                   | some m => renderError now m ::
                       (splitSections existing).filter (fun s => nonBlank s && isErrSec s)
                   | none => (splitSections existing).filter
                       (fun s => nonBlank s && isErrSec s)).take 20))) := by
  rw [manage_report, assembleParts, keptNormals.eq_def, keptErrors.eq_def,
    splitRecords_eq_filter]
  cases ne <;> cases nerr <;> rfl

/-- C2: when the ledger already holds 10 normal records (the cap), inserting
a new normal entry leaves exactly the 10 newest normal entries in
newest-first order — the new entry followed by the previous 9 newest — with
the previous oldest entry absent from the rewritten ledger; and on every
write the normal-record list never exceeds 10 entries and the error-log list
never exceeds 20.  The cleanliness and marker hypotheses say that no
retained section or the new entry embeds the delimiter or, for the new
entry, an error marker. -/
theorem ledger_retention (now existing : List Char) (e : EntryData)
    (h10 : (splitRecords (splitSections existing)).1.length = MAX_NORMAL_RECORDS)
    (hcn : ∀ s ∈ (splitRecords (splitSections existing)).1, Clean s)
    (hce : ∀ s ∈ (splitRecords (splitSections existing)).2.take 20, Clean s)
    (hent1 : Clean (renderEntry now e))
    (hent2 : isErrSec (renderEntry now e) = false)
    (hnd : (renderEntry now e :: (splitRecords (splitSections existing)).1).Nodup) :
    (splitRecords (splitSections (manage_report now existing (some e) none))).1 =
        renderEntry now e :: (splitRecords (splitSections existing)).1.take 9 ∧
      (∀ x, (splitRecords (splitSections existing)).1.getLast? = some x →
        x ∉ (splitRecords (splitSections (manage_report now existing (some e) none))).1) ∧
      ∀ (existing2 now2 : List Char) (ne2 : Option EntryData) (nerr2 : Option (List Char)),
        (keptNormals existing2 (ne2.map (renderEntry now2))).length ≤ MAX_NORMAL_RECORDS ∧
        (keptErrors existing2 (nerr2.map (renderError now2))).length ≤ MAX_ERROR_LOGS := by
  have hcaps : ∀ (existing2 now2 : List Char) (ne2 : Option EntryData)
      (nerr2 : Option (List Char)),
      (keptNormals existing2 (ne2.map (renderEntry now2))).length ≤ MAX_NORMAL_RECORDS ∧
      (keptErrors existing2 (nerr2.map (renderError now2))).length ≤ MAX_ERROR_LOGS := by
    intro existing2 now2 ne2 nerr2
    constructor
    · rw [keptNormals.eq_def]
      cases ne2 with
      | none => exact List.length_take_le MAX_NORMAL_RECORDS _
      | some a => exact List.length_take_le MAX_NORMAL_RECORDS _
    · rw [keptErrors.eq_def]
      cases nerr2 with
      | none => exact List.length_take_le MAX_ERROR_LOGS _
      | some a => exact List.length_take_le MAX_ERROR_LOGS _
  set ent := renderEntry now e with hent
  set n0 := (splitRecords (splitSections existing)).1 with hn0
  set e2 := (splitRecords (splitSections existing)).2.take 20 with he2
  have hkn : keptNormals existing ((some e).map (renderEntry now)) = ent :: n0.take 9 := by
    rw [keptNormals.eq_def]
    dsimp only [Option.map]
    show (ent :: n0).take MAX_NORMAL_RECORDS = ent :: n0.take 9
    rw [show MAX_NORMAL_RECORDS = 9 + 1 from rfl, List.take_succ_cons]
  have hke : keptErrors existing ((none : Option (List Char)).map (renderError now)) = e2 := by
    rw [keptErrors.eq_def]
    dsimp only [Option.map]
    rw [he2]
    rfl
  have hparts : manage_report now existing (some e) none =
      List.intercalate DELIM ((ent :: n0.take 9) ++
        (if e2 = [] then [] else [[]] ++ headerLine :: e2)) := by
    rw [manage_report, hkn, hke, assembleParts,
      if_neg (show ¬(ent :: n0.take 9) = [] by simp)]
  have hclean : ∀ p ∈ (ent :: n0.take 9) ++
      (if e2 = [] then [] else [[]] ++ headerLine :: e2), Clean p := by
    intro p hp
    rcases List.mem_append.mp hp with hp | hp
    · rcases List.mem_cons.mp hp with hp | hp
      · rw [hp]; exact hent1
      · exact hcn p (List.take_subset 9 n0 hp)
    · by_cases hee : e2 = []
      · rw [if_pos hee] at hp
        simp at hp
      · rw [if_neg hee] at hp
        rcases List.mem_append.mp hp with hp | hp
        · have : p = [] := by simpa using hp
          rw [this]; exact clean_nil
        · rcases List.mem_cons.mp hp with hp | hp
          · rw [hp]; exact headerLine_clean
          · exact hce p hp
  have hsplit : splitSections (manage_report now existing (some e) none) =
      (ent :: n0.take 9) ++ (if e2 = [] then [] else [[]] ++ headerLine :: e2) := by
    rw [hparts]
    exact splitSections_intercalate _ (by simp) hclean
  have hnormfilter : (splitRecords ((ent :: n0.take 9) ++
      (if e2 = [] then [] else [[]] ++ headerLine :: e2))).1 = ent :: n0.take 9 := by
    rw [splitRecords_eq_filter]
    show List.filter _ _ = _
    rw [List.filter_append]
    have hA : List.filter (fun s => nonBlank s && !isErrSec s && hasEvalMark s)
        (ent :: n0.take 9) = ent :: n0.take 9 := by
      rw [List.filter_eq_self]
      intro s hs
      rcases List.mem_cons.mp hs with hs | hs
      · subst hs
        simp [renderEntry_nonBlank, hent2, renderEntry_hasEval, hent]
      · have hm := mem_splitRecords_normal (splitSections existing) s
          (List.take_subset 9 n0 hs)
        simp [hm.1, hm.2.1, hm.2.2]
    have hB : List.filter (fun s => nonBlank s && !isErrSec s && hasEvalMark s)
        (if e2 = [] then [] else [[]] ++ headerLine :: e2) = [] := by
      rw [List.filter_eq_nil_iff]
      intro s hs
      by_cases hee : e2 = []
      · rw [if_pos hee] at hs
        simp at hs
      · rw [if_neg hee] at hs
        rcases List.mem_append.mp hs with hs | hs
        · have : s = [] := by simpa using hs
          subst this
          simp [nonBlank_nil]
        · rcases List.mem_cons.mp hs with hs | hs
          · subst hs
            simp [headerLine_isErr]
          · have hm := mem_splitRecords_err (splitSections existing) s
              (List.take_subset 20 _ hs)
            simp [hm.2]
    rw [hA, hB, List.append_nil]
  refine ⟨by rw [hsplit, hnormfilter], ?_, hcaps⟩
  intro x hx
  rw [hsplit, hnormfilter]
  have hne : n0 ≠ [] := by
    intro hh
    rw [hh] at h10
    simp [MAX_NORMAL_RECORDS] at h10
  have hxl : x = n0.getLast hne := by
    have h2 := List.getLast?_eq_getLast n0 hne
    rw [hx] at h2
    exact (Option.some.injEq _ _).mp h2
  have hxsplit : n0.dropLast ++ [x] = n0 := by
    rw [hxl]
    exact List.dropLast_append_getLast hne
  have hnd2 : n0.Nodup := (List.nodup_cons.mp hnd).2
  have hxmem : x ∈ n0 := by
    rw [hxl]
    exact List.getLast_mem hne
  have hxne : x ≠ ent := by
    intro hh
    exact (List.nodup_cons.mp hnd).1 (hh ▸ hxmem)
  have hxnottake : x ∉ n0.take 9 := by
    have hd9 : n0.take 9 = n0.dropLast := by
      rw [List.dropLast_eq_take, h10]
      rfl
    rw [hd9]
    intro hmem
    rw [← hxsplit] at hnd2
    rcases List.nodup_append.mp hnd2 with ⟨_, _, hdisj⟩
    exact hdisj hmem (by simp)
  intro hmem
  rcases List.mem_cons.mp hmem with hh | hh
  · exact hxne hh
  · exact hxnottake hh

/-- A concrete full ledger: ten normal records. -/
def sampleLedger : List Char :=
  List.intercalate DELIM
    [("评估时间: A0").toList, ("评估时间: A1").toList, ("评估时间: A2").toList,
     ("评估时间: A3").toList, ("评估时间: A4").toList, ("评估时间: A5").toList,
     ("评估时间: A6").toList, ("评估时间: A7").toList, ("评估时间: A8").toList,
     ("评估时间: A9").toList]

/-- A concrete new evaluation entry. -/
def sampleEntry : EntryData :=
  { period := ("101").toList
    prize_numbers := [7, 7, 7, 7, 7]
    recommendation_count := 1
    winning_count := 0
    total_prize := 0
    winning_details := [] }

set_option maxRecDepth 100000 in
/-- Witness for C2: inserting an 11th entry into the full sample ledger keeps
the new entry and the 9 newest old ones, in that order. -/
theorem ledger_retention_witness :
    (splitRecords (splitSections
        (manage_report (("T").toList) sampleLedger (some sampleEntry) none))).1 =
      renderEntry (("T").toList) sampleEntry ::
        (splitRecords (splitSections sampleLedger)).1.take 9 :=
  (ledger_retention (("T").toList) sampleLedger sampleEntry (by decide) (by decide)
    (by decide) (by decide) (by decide) (by decide)).1

end PL5
